import Mathlib

/-!
Verification of the interval-remapping engine and other puzzle algorithms
of an Advent-of-Code style Rust repository, via a shallow embedding.

Loops of the source are embedded as structurally recursive functions with
an explicit iteration budget (`fuel`) chosen to dominate the source loop's
trip count, so that every definition is executable by kernel reduction.
-/

namespace Day05

/-- A remapping range `(src, dst, len)` from `day05.rs`. -/
structure Range where
  src : Nat
  dst : Nat
  len : Nat
deriving DecidableEq, Repr

/-- `Range::contains`: `key ∈ [src, src+len)`. -/
def Range.containsKey (r : Range) (key : Nat) : Prop :=
  r.src ≤ key ∧ key < r.src + r.len

instance (r : Range) (key : Nat) : Decidable (r.containsKey key) := by
  unfold Range.containsKey; infer_instance

/-- `Range::map` (its computation; the source asserts `contains` first). -/
def Range.mapKey (r : Range) (key : Nat) : Nat :=
  r.dst + (key - r.src)

/-- A remapping table: `Map` of `day05.rs` (ranges sorted by the caller). -/
structure Map where
  ranges : List Range
deriving Repr

/-- The binary-search loop of `Map::map`. The Rust `while lb < ub` loop
shrinks `ub - lb` by at least one each iteration, so a budget of
`ranges.length + 1` dominates its trip count; the `0` case is never
reached from `Map.map`. -/
def Map.mapGo (rs : List Range) (key : Nat) : Nat → Nat → Nat → Nat
  | 0, _, _ => key
  | fuel + 1, lb, ub =>
    if lb < ub then
      let mid := (lb + ub) / 2
      match rs.get? mid with
      | none => key
      | some range =>
        if range.containsKey key then range.mapKey key
        else if key < range.src then Map.mapGo rs key fuel lb mid
        else Map.mapGo rs key fuel (mid + 1) ub
    else key

/-- `Map::map`: binary search over the sorted ranges, identity fallback. -/
def Map.mapKey (m : Map) (key : Nat) : Nat :=
  Map.mapGo m.ranges key (m.ranges.length + 1) 0 m.ranges.length

/-- `Maps`: a pipeline of remapping tables. -/
structure Maps where
  maps : List Map
deriving Repr

/-- `Maps::map`: fold the key through every table, left to right. -/
def Maps.mapKey (ms : Maps) (key : Nat) : Nat :=
  ms.maps.foldl (fun acc m => m.mapKey acc) key

/-- The recursion of `Maps::min`. Each recursive call strictly shrinks the
interval length `ub - lb`, so a budget of `ub - lb` suffices (the `0` case
is never reached when the source's precondition `lb < ub` holds). -/
def Maps.minGo (ms : Maps) : Nat → Nat → Nat → Nat
  | 0, lb, _ => ms.mapKey lb
  | fuel + 1, lb, ub =>
    if lb + 1 = ub then ms.mapKey lb
    else if ms.mapKey (ub - 1) > ms.mapKey lb ∧
            ms.mapKey (ub - 1) - ms.mapKey lb = (ub - lb) - 1 then
      -- `value_ub > value_lb && value_ub - value_lb == len - 1`
      ms.mapKey lb
    else
      Nat.min (ms.minGo fuel lb ((lb + ub) / 2))
              (ms.minGo fuel ((lb + ub) / 2) ub)

/-- `Maps::min` over the half-open interval `[lb, ub)` (the source asserts
`lb < ub` on entry). -/
def Maps.minKey (ms : Maps) (lb ub : Nat) : Nat :=
  ms.minGo (ub - lb) lb ub

/-- `usize::MAX`, the fold seed of the `lowest_location*` functions. -/
def usizeMax : Nat := 2 ^ 64 - 1

/-- `chunks_exact(2)` over the seed list: consecutive pairs, leftover
dropped. -/
def chunks2 : List Nat → List (Nat × Nat)
  | a :: b :: rest => (a, b) :: chunks2 rest
  | _ => []

/-- Parsed puzzle input: seeds plus the pipeline. -/
structure Input where
  seeds : List Nat
  maps : Maps

/-- `Input::lowest_location_of_seed_ranges`. -/
def Input.lowestLocationOfSeedRanges (i : Input) : Nat :=
  (chunks2 i.seeds).foldl
    (fun acc p => Nat.min acc (i.maps.minKey p.1 (p.1 + p.2))) usizeMax

/-- The two-table pipeline built by the regression test
`test_that_breaks_day5_part2_algo` in `day05.rs`. -/
def testMaps : Maps :=
  { maps :=
      [ { ranges := [⟨0, 100, 100⟩] },
        { ranges := [⟨100, 100, 50⟩, ⟨150, 0, 20⟩, ⟨170, 170, 30⟩] } ] }

/-- The input of that regression test: seed range `[0, 100)`. -/
def testInput : Input := { seeds := [0, 100], maps := testMaps }

/-- The table of §8 of the spec, as `Map::new` receives it after
`map.sort()`: `[(src=50,dst=52,len=48), (src=98,dst=50,len=2)]`. -/
def exTable : List Range := [⟨50, 52, 48⟩, ⟨98, 50, 2⟩]

/-- First range of the zero-length-range table: `[0, 10) ↦ [5, 15)`. -/
def cexR0 : Range := ⟨0, 5, 10⟩

/-- Second range of the zero-length-range table: empty span at `3`. -/
def cexR1 : Range := ⟨3, 0, 0⟩

/-- Parser model of `nom::IResult`: on success, the remaining input and
the parsed value; on error, `none`. -/
def P (α : Type) : Type := List Char → Option (List Char × α)

/-- ASCII digit test used by `digit1`. -/
def isDigitChar (c : Char) : Bool := 48 ≤ c.toNat && c.toNat ≤ 57

/-- Space or tab, the character class of `nom`'s `space1`. -/
def isSpaceChar (c : Char) : Bool := c == ' ' || c == '\t'

/-- `nom::character::complete::digit1`: one or more ASCII digits. -/
def digit1 : P (List Char) := fun s =>
  let ds := s.takeWhile isDigitChar
  if ds.isEmpty then none else some (s.drop ds.length, ds)

/-- `nom::character::complete::space1`: one or more spaces/tabs. -/
def space1 : P (List Char) := fun s =>
  let ds := s.takeWhile isSpaceChar
  if ds.isEmpty then none else some (s.drop ds.length, ds)

/-- `nom::character::complete::newline`: a single line feed. -/
def newlineP : P Char := fun s =>
  match s with
  | c :: rest => if c = '\n' then some (rest, c) else none
  | [] => none

/-- `nom::bytes::complete::tag`. -/
def tagP (t : String) : P Unit := fun s =>
  if t.data.isPrefixOf s then some (s.drop t.data.length, ()) else none

/-- `parse_number`: `map_res(digit1, str::parse::<usize>)`. Every number
in the inputs considered here is far below `usize::MAX`, where
`str::parse` cannot fail, so it is total on digit strings. -/
def parseNumber : P Nat := fun s =>
  (digit1 s).map fun p =>
    (p.1, p.2.foldl (fun n c => n * 10 + (c.toNat - 48)) 0)

/-- Loop of `nom::multi::separated_list1(sep, p)`: repeatedly `sep` then
`p`, backtracking out of the final `sep` when `p` fails afterwards. The
separators used here (`space1`, `newline`) consume at least one character
per iteration, so a budget of the input length bounds the trip count. -/
def sepList1Go {α β : Type} (sep : P β) (p : P α) :
    Nat → List Char → List α → List Char × List α
  | 0, s, acc => (s, acc)
  | fuel + 1, s, acc =>
    match sep s with
    | none => (s, acc)
    | some (s1, _) =>
      match p s1 with
      | none => (s, acc)
      | some (s2, a) => sepList1Go sep p fuel s2 (acc ++ [a])

/-- `nom::multi::separated_list1(sep, p)`: fails iff the first `p` fails. -/
def sepList1 {α β : Type} (sep : P β) (p : P α) : P (List α) := fun s =>
  match p s with
  | none => none
  | some (s1, a) => some (sepList1Go sep p s1.length s1 [a])

/-- `parse_map`: `dst` SP `src` SP `len` (note the field order). -/
def parseMapLine : P Range := fun s =>
  (parseNumber s).bind fun p1 =>
  (space1 p1.1).bind fun p2 =>
  (parseNumber p2.1).bind fun p3 =>
  (space1 p3.1).bind fun p4 =>
  (parseNumber p4.1).map fun p5 =>
  (p5.1, { src := p3.2, dst := p1.2, len := p5.2 })

/-- The lexicographic `(src, dst, len)` comparison of the derived `Ord`
that `map.sort()` sorts by. -/
def rangeLe (a b : Range) : Bool :=
  Nat.blt a.src b.src ||
    (Nat.beq a.src b.src &&
      (Nat.blt a.dst b.dst || (Nat.beq a.dst b.dst && Nat.ble a.len b.len)))

/-- Insert into a sorted list, keeping equal elements in input order. -/
def insertSorted (r : Range) : List Range → List Range
  | [] => [r]
  | x :: xs => if rangeLe r x then r :: x :: xs else x :: insertSorted r xs

/-- Stable sort: the effect of `map.sort()` on the parsed ranges. -/
def sortRanges (l : List Range) : List Range := l.foldr insertSorted []

/-- One `<name> map:` section of `parse_input`: tag, newline, the range
lines, then — except for the last section — two newlines; the ranges are
sorted before `Map::new`. -/
def parseSection (header : String) (trailing : Bool) : P Map := fun s =>
  (tagP header s).bind fun q1 =>
  (newlineP q1.1).bind fun q2 =>
  (sepList1 newlineP parseMapLine q2.1).bind fun q3 =>
  if trailing then
    (newlineP q3.1).bind fun q4 =>
    (newlineP q4.1).map fun q5 =>
    (q5.1, Map.mk (sortRanges q3.2))
  else some (q3.1, Map.mk (sortRanges q3.2))

/-- `parse_input`: the seed line and the seven headed map sections. The
two seed-count assertions panic in the source; a panic aborts the day just
as a parse error does and is modelled as `none`. -/
def parseInput : P (List Nat × Maps) := fun s =>
  (tagP "seeds: " s).bind fun q1 =>
  (sepList1 space1 parseNumber q1.1).bind fun q2 =>
  (newlineP q2.1).bind fun q3 =>
  (newlineP q3.1).bind fun q4 =>
  if q2.2.length < 2 ∨ q2.2.length % 2 ≠ 0 then none
  else
  (parseSection "seed-to-soil map:" true q4.1).bind fun r1 =>
  (parseSection "soil-to-fertilizer map:" true r1.1).bind fun r2 =>
  (parseSection "fertilizer-to-water map:" true r2.1).bind fun r3 =>
  (parseSection "water-to-light map:" true r3.1).bind fun r4 =>
  (parseSection "light-to-temperature map:" true r4.1).bind fun r5 =>
  (parseSection "temperature-to-humidity map:" true r5.1).bind fun r6 =>
  (parseSection "humidity-to-location map:" false r6.1).map fun r7 =>
  (r7.1, (q2.2, Maps.mk [r1.2, r2.2, r3.2, r4.2, r5.2, r6.2, r7.2]))

/-- `Input::from_str`: run `parse_input` and DISCARD any unconsumed
remainder of the input (`let (_, (seeds, maps)) = parse_input(s)…`). -/
def inputFromStr (s : String) : Option Input :=
  (parseInput s.data).map fun p => { seeds := p.2.1, maps := p.2.2 }

/-- A well-formed miniature day-5 input. -/
def goodInput : String :=
  "seeds: 1 2\n\nseed-to-soil map:\n1 1 1\n\nsoil-to-fertilizer map:\n1 1 1\n\nfertilizer-to-water map:\n1 1 1\n\nwater-to-light map:\n1 1 1\n\nlight-to-temperature map:\n1 1 1\n\ntemperature-to-humidity map:\n1 1 1\n\nhumidity-to-location map:\n1 1 1"

/-- Malformed: the first range line has two fields instead of three. -/
def badFieldCount : String :=
  "seeds: 1 2\n\nseed-to-soil map:\n1 1\n\nsoil-to-fertilizer map:\n1 1 1\n\nfertilizer-to-water map:\n1 1 1\n\nwater-to-light map:\n1 1 1\n\nlight-to-temperature map:\n1 1 1\n\ntemperature-to-humidity map:\n1 1 1\n\nhumidity-to-location map:\n1 1 1"

/-- Malformed: a non-numeric token where a seed number is expected. -/
def badToken : String :=
  "seeds: a 2\n\nseed-to-soil map:\n1 1 1\n\nsoil-to-fertilizer map:\n1 1 1\n\nfertilizer-to-water map:\n1 1 1\n\nwater-to-light map:\n1 1 1\n\nlight-to-temperature map:\n1 1 1\n\ntemperature-to-humidity map:\n1 1 1\n\nhumidity-to-location map:\n1 1 1"

/-- Malformed: the `soil-to-fertilizer map:` section header is missing. -/
def badHeader : String :=
  "seeds: 1 2\n\nseed-to-soil map:\n1 1 1\n\nfertilizer-to-water map:\n1 1 1\n\nwater-to-light map:\n1 1 1\n\nlight-to-temperature map:\n1 1 1\n\ntemperature-to-humidity map:\n1 1 1\n\nhumidity-to-location map:\n1 1 1"

/-- Malformed: the final range line has four fields instead of three. -/
def tailExtraField : String :=
  "seeds: 1 2\n\nseed-to-soil map:\n1 1 1\n\nsoil-to-fertilizer map:\n1 1 1\n\nfertilizer-to-water map:\n1 1 1\n\nwater-to-light map:\n1 1 1\n\nlight-to-temperature map:\n1 1 1\n\ntemperature-to-humidity map:\n1 1 1\n\nhumidity-to-location map:\n1 1 1 7"

end Day05

namespace Day04

/-- A scratchcard from `day04.rs`: id, copy count, winning numbers and
owned numbers (`HashSet`s in the source, so sets of distinct values). -/
structure Card where
  id : Nat
  copies : Nat
  winning_numbers : Finset Nat
  my_numbers : Finset Nat
deriving DecidableEq

/-- `Card::num_matching`: size of the intersection of the two sets. -/
def Card.num_matching (c : Card) : Nat :=
  (c.winning_numbers ∩ c.my_numbers).card

/-- `copies += k` on one card. -/
def bump (k : Nat) (c : Card) : Card := { c with copies := c.copies + k }

/-- Walk the card list; positions in `[start, start + n)` of the original
list get `copies += k` (`i` is the index of the current head). -/
def grantGo (start n k : Nat) : Nat → List Card → List Card
  | _, [] => []
  | i, c :: cs =>
    (if start ≤ i ∧ i < start + n then bump k c else c) ::
      grantGo start n k (i + 1) cs

/-- The inner loop of `Game::play`:
`self.cards.iter_mut().skip(start).take(n)` each get `copies += k`. -/
def grantCopies (cards : List Card) (start n k : Nat) : List Card :=
  grantGo start n k 0 cards

/-- The outer loop of `Game::play`: `for card_idx in 0..len`, granting
`copies` of the card at `card_idx` to the cards at indices
`[id, id + num_matching)` — note `skip(id)`, not `skip(card_idx + 1)`.
The budget is the loop's remaining trip count. -/
def playGo : Nat → Nat → List Card → List Card
  | 0, _, cards => cards
  | fuel + 1, idx, cards =>
    match cards.get? idx with
    | none => cards
    | some c =>
      playGo fuel (idx + 1) (grantCopies cards c.id c.num_matching c.copies)

/-- `Game::play`: run the loop over all indices, then return the sum of
all `copies` fields. -/
def play (cards : List Card) : Nat :=
  ((playGo cards.length 0 cards).map Card.copies).sum

/-- Reference loop following the spec's words (§8): a card with `n`
matching numbers grants its current copy count to each of the NEXT `n`
cards, i.e. card `idx` grants to indices `[idx + 1, idx + 1 + n)`. -/
def cascadeGo : Nat → Nat → List Card → List Card
  | 0, _, cards => cards
  | fuel + 1, idx, cards =>
    match cards.get? idx with
    | none => cards
    | some c =>
      cascadeGo fuel (idx + 1)
        (grantCopies cards (idx + 1) c.num_matching c.copies)

/-- A parseable two-card game whose ids are both 1 (the parse of
`"Card 1: 5 | 5\nCard 1: 7 | 7"`; parsing sets `copies := 1` and never
checks an id against its line position). Each card has one match. -/
def cexCards : List Card :=
  [ { id := 1, copies := 1, winning_numbers := {5}, my_numbers := {5} },
    { id := 1, copies := 1, winning_numbers := {7}, my_numbers := {7} } ]

/-- The same game with ids matching their 1-based positions. -/
def okCards : List Card :=
  [ { id := 1, copies := 1, winning_numbers := {5}, my_numbers := {5} },
    { id := 2, copies := 1, winning_numbers := {7}, my_numbers := {7} } ]

end Day04

namespace Day07

/-- Card labels of `day07.rs`, in their derived `Ord` order. -/
inductive Card
  | two
  | three
  | four
  | five
  | six
  | seven
  | eight
  | nine
  | ten
  | jack
  | queen
  | king
  | ace
deriving DecidableEq, Repr

/-- The enum discriminant, `card as usize`. -/
def Card.idx : Card → Nat
  | .two => 0
  | .three => 1
  | .four => 2
  | .five => 3
  | .six => 4
  | .seven => 5
  | .eight => 6
  | .nine => 7
  | .ten => 8
  | .jack => 9
  | .queen => 10
  | .king => 11
  | .ace => 12

/-- `Card::try_from(u8)` on a hand character. -/
def Card.ofChar : Char → Option Card
  | '2' => some .two
  | '3' => some .three
  | '4' => some .four
  | '5' => some .five
  | '6' => some .six
  | '7' => some .seven
  | '8' => some .eight
  | '9' => some .nine
  | 'T' => some .ten
  | 'J' => some .jack
  | 'Q' => some .queen
  | 'K' => some .king
  | 'A' => some .ace
  | _ => none

/-- Hand types of `day07.rs`, in their derived `Ord` order. -/
inductive HandType
  | highCard
  | onePair
  | twoPairs
  | threeOfAKind
  | fullHouse
  | fourOfAKind
  | fiveOfAKind
deriving DecidableEq, Repr

/-- The discriminant that the derived `Ord` of `HandType` compares by. -/
def HandType.rank : HandType → Nat
  | .highCard => 0
  | .onePair => 1
  | .twoPairs => 2
  | .threeOfAKind => 3
  | .fullHouse => 4
  | .fourOfAKind => 5
  | .fiveOfAKind => 6

/-- `counts[i] += 1`. -/
def incAt (l : List Nat) (i : Nat) : List Nat := l.set i (l.getD i 0 + 1)

/-- The `[usize; 13]` label histogram of a five-card hand. -/
def countsOf (hand : List Card) : List Nat :=
  hand.foldl (fun counts c => incAt counts c.idx) (List.replicate 13 0)

/-- `HandType::from([usize; 13])`: the if-chain over the counts. -/
def handTypeOfCounts (counts : List Nat) : HandType :=
  if counts.any (fun c => c == 5) then .fiveOfAKind
  else if counts.any (fun c => c == 4) then .fourOfAKind
  else if counts.any (fun c => c == 3) && counts.any (fun c => c == 2) then
    .fullHouse
  else if counts.any (fun c => c == 3) then .threeOfAKind
  else if counts.countP (fun c => c == 2) == 2 then .twoPairs
  else if counts.any (fun c => c == 2) then .onePair
  else .highCard

/-- `HandType::from(&DefaultHand)`: histogram, then the if-chain. -/
def defaultHandType (hand : List Card) : HandType :=
  handTypeOfCounts (countsOf hand)

/-- Index of the last maximum of the list — `iter_mut().max()` returns
the last maximal element when several are equal. -/
def lastArgmax (l : List Nat) : Nat :=
  (l.foldl
    (fun st v =>
      if st.2.2 ≤ v then (st.1 + 1, st.1, v) else (st.1 + 1, st.2.1, st.2.2))
    ((0 : Nat), (0 : Nat), (0 : Nat))).2.1

/-- `HandType::from(&JokerHand)`: zero the joker count and add it to the
most frequent remaining label. -/
def jokerHandType (hand : List Card) : HandType :=
  let counts := countsOf hand
  let jokers := counts.getD Card.jack.idx 0
  let counts2 := counts.set Card.jack.idx 0
  let i := lastArgmax counts2
  handTypeOfCounts (counts2.set i (counts2.getD i 0 + jokers))

/-- `Hand::from_str`: exactly five characters, each a valid card. -/
def parseHand (s : String) : Option (List Card) :=
  if s.length = 5 then s.data.mapM Card.ofChar else none

/-- The hand `"QJJQ2"`. -/
def qjjq2 : List Card := [.queen, .jack, .jack, .queen, .two]

end Day07

namespace Day01

/-- Byte values of a string (`line.as_bytes()`; the lines are ASCII). -/
def strBytes (s : String) : List Nat := s.data.map Char.toNat

/-- The `ZERO_TO_NINE` word table of `part2::Digit::try_from`, in the
order the source scans it. -/
def zeroToNine : List (Nat × List Nat) :=
  [ (0, strBytes "zero"), (1, strBytes "one"), (2, strBytes "two"),
    (3, strBytes "three"), (4, strBytes "four"), (5, strBytes "five"),
    (6, strBytes "six"), (7, strBytes "seven"), (8, strBytes "eight"),
    (9, strBytes "nine") ]

/-- `part2::Digit::try_from` on the byte suffix starting at a position:
an ASCII digit at the head, else the first spelled-out digit word that is
a prefix. (`try_from` is only ever called on non-empty suffixes.) -/
def digitAt (v : List Nat) : Option Nat :=
  match v with
  | [] => none
  | b :: _ =>
    if 48 ≤ b ∧ b ≤ 57 then some (b - 48)
    else
      zeroToNine.findSome? fun p =>
        if p.2.isPrefixOf v then some p.1 else none

/-- The digit scan of `part2::Calibration::try_from`: try every byte
position of the line, left to right, keeping the successes. -/
def digitsOf (bytes : List Nat) : List Nat :=
  (List.range bytes.length).filterMap fun i => digitAt (bytes.drop i)

/-- The `match digits.as_slice()` of `Calibration::try_from`: a single
digit is doubled, otherwise first and last combine; no digit is an error. -/
def valueOf : List Nat → Option Nat
  | [] => none
  | [d] => some (d * 10 + d)
  | d1 :: d2 :: rest => some (d1 * 10 + (d2 :: rest).getLast (by simp))

/-- Calibration value of one line under the part-2 digit rules. -/
def calibrationValue (bytes : List Nat) : Option Nat :=
  valueOf (digitsOf bytes)

end Day01

namespace Day06

/-- A race from `day06.rs`. -/
structure Race where
  time : Nat
  distance : Nat
deriving DecidableEq, Repr

/-- `Race::distance` with its `assert!(hold_time <= self.time)` modelled:
`none` is the panic, otherwise `(time - hold_time) * hold_time`. -/
def Race.distanceCk (r : Race) (hold : Nat) : Option Nat :=
  if hold ≤ r.time then some ((r.time - hold) * hold) else none

/-- The `(hold_time, distance)` table over `0..=time` that both
`Race::winning_bets` and `Race::num_winning_bets` build; `none` if any
inner assertion fired. -/
def Race.bets (r : Race) : Option (List (Nat × Nat)) :=
  (List.range (r.time + 1)).mapM fun h => (r.distanceCk h).map fun d => (h, d)

/-- `Race::winning_bets`: `skip_while(distance <= record)` then
`take_while(distance > record)`. -/
def Race.winningBets (r : Race) : Option (List (Nat × Nat)) :=
  r.bets.map fun l =>
    (l.dropWhile fun p => Nat.ble p.2 r.distance).takeWhile fun p =>
      Nat.blt r.distance p.2

/-- `Race::num_winning_bets`: the same pipeline, counted. -/
def Race.numWinningBets (r : Race) : Option Nat :=
  r.winningBets.map List.length

end Day06

namespace Day15

/-- A step operation from `day15.rs`: `label-` or `label=n`. -/
inductive Op
  | remove
  | add (focal : Nat)
deriving DecidableEq, Repr

/-- A parsed step: its label bytes and its operation. (The full original
text only feeds the part-1 hash, which takes a plain byte string here.) -/
structure Step where
  label : List Nat
  op : Op
deriving DecidableEq, Repr

/-- `Step::hash`: rolling `(h + b) * 17 % 256`, with the `usize` wrapping
of the source made explicit (it never actually wraps: `h` stays below
256 and bytes are below 2⁸, but the model accepts any naturals). -/
def hashBytes (bytes : List Nat) : Nat :=
  bytes.foldl (fun h b => (h + b) % 2 ^ 64 * 17 % 2 ^ 64 % 256) 0

/-- `vec![vec![]; 256]`. -/
def initBoxes : List (List Step) := List.replicate 256 []

/-- One iteration of the filling loop of `Steps::run`; `none` models an
out-of-bounds `boxes[hash]` panic. -/
def applyStep (boxes : List (List Step)) (s : Step) :
    Option (List (List Step)) :=
  match boxes.get? (hashBytes s.label) with
  | none => none
  | some bx =>
    match s.op with
    | Op.remove =>
      match bx.findIdx? fun t => t.label == s.label with
      | some i => some (boxes.set (hashBytes s.label) (bx.eraseIdx i))
      | none => some boxes
    | Op.add _ =>
      match bx.findIdx? fun t => t.label == s.label with
      | some i => some (boxes.set (hashBytes s.label) (bx.set i s))
      | none => some (boxes.set (hashBytes s.label) (bx ++ [s]))

/-- The filling loop of `Steps::run`, over all steps in order. -/
def runSteps : List Step → List (List Step) → Option (List (List Step))
  | [], boxes => some boxes
  | s :: rest, boxes => (applyStep boxes s).bind (runSteps rest)

/-- Focusing power of one box (`step_idx` is the position of the head);
`none` models the `unreachable!` on a `Remove` step found in a box. -/
def boxPowerGo (bxIdx : Nat) : Nat → List Step → Option Nat
  | _, [] => some 0
  | stepIdx, s :: rest =>
    match s.op with
    | Op.remove => none
    | Op.add focal =>
      (boxPowerGo bxIdx (stepIdx + 1) rest).map fun acc =>
        (bxIdx + 1) * (stepIdx + 1) * focal + acc

/-- Total focusing power of the boxes (`bxIdx` is the head's index). -/
def totalPowerGo : Nat → List (List Step) → Option Nat
  | _, [] => some 0
  | bxIdx, bx :: rest =>
    (boxPowerGo bxIdx 0 bx).bind fun p =>
      (totalPowerGo (bxIdx + 1) rest).map fun q => p + q

/-- `Steps::run`: fill the boxes, then sum the focusing power; `none`
models any panic (indexing out of bounds, or the `unreachable!`). -/
def run (steps : List Step) : Option Nat :=
  (runSteps steps initBoxes).bind (totalPowerGo 0)

end Day15

/-! ## Theorems -/

namespace Day05

theorem Range.containsKey_iff (r : Range) (key : Nat) :
    r.containsKey key ↔ r.src ≤ key ∧ key < r.src + r.len := Iff.rfl

/-- `Maps.minGo` ignores its budget once the budget is at least the
interval length: the recursion is well-founded on `ub - lb`. -/
theorem minGo_fuel_congr (ms : Maps) :
    ∀ fuel fuel₂ lb ub, lb < ub → ub - lb ≤ fuel → ub - lb ≤ fuel₂ →
      ms.minGo fuel lb ub = ms.minGo fuel₂ lb ub := by
  intro fuel
  induction fuel with
  | zero => intro fuel₂ lb ub h hf _; omega
  | succ fuel ih =>
    intro fuel₂ lb ub h hf hf₂
    obtain ⟨f₂, rfl⟩ : ∃ f₂, fuel₂ = f₂ + 1 := ⟨fuel₂ - 1, by omega⟩
    simp only [Maps.minGo]
    by_cases h1 : lb + 1 = ub
    · simp [h1]
    · simp only [if_neg h1]
      by_cases h2 : ms.mapKey (ub - 1) > ms.mapKey lb ∧
          ms.mapKey (ub - 1) - ms.mapKey lb = (ub - lb) - 1
      · simp [h2]
      · simp only [if_neg h2]
        rw [ih f₂ lb ((lb + ub) / 2) (by omega) (by omega) (by omega),
            ih f₂ ((lb + ub) / 2) ub (by omega) (by omega) (by omega)]

/-- C9: `Maps::min` terminates: for `lb < ub` with `lb + 1 < ub` the
midpoint splits `[lb, ub)` into two strictly smaller non-empty intervals,
and a recursion budget of `ub - lb` is already enough — any budget at
least `ub - lb` computes the same value as `Maps.minKey`. -/
theorem c9_min_terminates (ms : Maps) (lb ub : Nat) (h : lb < ub) :
    (lb + 1 < ub →
      lb < (lb + ub) / 2 ∧ (lb + ub) / 2 < ub ∧
      (lb + ub) / 2 - lb < ub - lb ∧ ub - (lb + ub) / 2 < ub - lb) ∧
    ∀ fuel, ub - lb ≤ fuel → ms.minGo fuel lb ub = ms.minKey lb ub := by
  constructor
  · intro h2; omega
  · intro fuel hf
    exact minGo_fuel_congr ms fuel (ub - lb) lb ub h hf (le_refl _)

theorem c9_min_terminates_witness :
    Day05.testMaps.minGo 5 0 2 = Day05.testMaps.minKey 0 2 :=
  (c9_min_terminates testMaps 0 2 (by decide)).2 5 (by decide)

/-- C1, refuted: on the regression-test pipeline with `lb = 0`,
`ub = 100`, the endpoint conditions of the shortcut hold, yet the map is
neither linear over the interval nor minimised at `lb`: `map 50 = 0` lies
strictly below `map 0 = 100`. -/
theorem c1_counterexample :
    (0 : Nat) + 1 < 100 ∧
    testMaps.mapKey (100 - 1) > testMaps.mapKey 0 ∧
    testMaps.mapKey (100 - 1) - testMaps.mapKey 0 = (100 - 1) - 0 ∧
    (0 : Nat) ≤ 50 ∧ 50 < 100 ∧
    testMaps.mapKey 50 < testMaps.mapKey 0 ∧
    testMaps.mapKey 50 ≠ testMaps.mapKey 0 + (50 - 0) := by decide

/-- C1, amended: when the endpoint conditions hold, the shortcut branch
of `Maps::min` fires and the call returns `map lb` — but that value need
not be the true minimum of the map over `[lb, ub)`. -/
theorem c1_shortcut_returns_endpoint (ms : Maps) (lb ub : Nat)
    (h : lb + 1 < ub)
    (hmono : ms.mapKey (ub - 1) > ms.mapKey lb)
    (hlin : ms.mapKey (ub - 1) - ms.mapKey lb = (ub - 1) - lb) :
    ms.minKey lb ub = ms.mapKey lb := by
  unfold Maps.minKey
  obtain ⟨f, hf⟩ : ∃ f, ub - lb = f + 1 := ⟨ub - lb - 1, by omega⟩
  rw [hf]
  simp only [Maps.minGo]
  rw [if_neg (by omega), if_pos ⟨hmono, by omega⟩]

theorem c1_shortcut_returns_endpoint_witness :
    (Maps.mk []).minKey 0 2 = (Maps.mk []).mapKey 0 :=
  c1_shortcut_returns_endpoint ⟨[]⟩ 0 2 (by decide) (by decide) (by decide)

/-- C2: on the regression test pipeline with seed range `[0, 100)`,
`lowest_location_of_seed_ranges` (that is, `Maps::min 0 100`) returns
`100`, while the true minimum of `Maps::map` over `[0, 100)` is `0`,
attained at key `50`. -/
theorem c2_regression_pipeline_overshoots :
    testInput.lowestLocationOfSeedRanges = 100 ∧
    testMaps.minKey 0 100 = 100 ∧
    ((List.range 100).map testMaps.mapKey).foldl Nat.min usizeMax = 0 ∧
    testMaps.mapKey 50 = 0 := by
  set_option maxRecDepth 10000 in decide

end Day05

namespace Day05

/-- If no range contains the key, the binary-search loop falls through and
returns the key (identity fallback), whatever the budget and bounds. -/
theorem mapGo_notfound (rs : List Range) (key : Nat)
    (hnone : ∀ r ∈ rs, ¬ r.containsKey key) :
    ∀ fuel lb ub, Map.mapGo rs key fuel lb ub = key := by
  intro fuel
  induction fuel with
  | zero => intro lb ub; rfl
  | succ fuel ih =>
    intro lb ub
    simp only [Map.mapGo]
    by_cases hlt : lb < ub
    · simp only [if_pos hlt]
      cases hget : rs.get? ((lb + ub) / 2) with
      | none => rfl
      | some range =>
        have hmem : range ∈ rs := List.get?_mem hget
        dsimp only
        rw [if_neg (hnone range hmem)]
        by_cases hk : key < range.src
        · rw [if_pos hk]; exact ih _ _
        · rw [if_neg hk]; exact ih _ _
    · rw [if_neg hlt]

/-- Sorted-by-`src`, pairwise-disjoint ranges of positive length are
chained: an earlier range ends no later than a later one starts. -/
theorem chain_of_sorted_disjoint (rs : List Range)
    (hsort : ∀ i j (hi : i < rs.length) (hj : j < rs.length), i < j →
        (rs.get ⟨i, hi⟩).src ≤ (rs.get ⟨j, hj⟩).src)
    (hdisj : ∀ i j (hi : i < rs.length) (hj : j < rs.length), i ≠ j →
        ∀ k, ¬((rs.get ⟨i, hi⟩).containsKey k ∧ (rs.get ⟨j, hj⟩).containsKey k))
    (hpos : ∀ r ∈ rs, 0 < r.len) :
    ∀ i j (hi : i < rs.length) (hj : j < rs.length), i < j →
      (rs.get ⟨i, hi⟩).src + (rs.get ⟨i, hi⟩).len ≤ (rs.get ⟨j, hj⟩).src := by
  intro i j hi hj hij
  by_contra hlt
  have h1 := hsort i j hi hj hij
  have hposj : 0 < (rs.get ⟨j, hj⟩).len := hpos _ (rs.get_mem j hj)
  exact hdisj i j hi hj (by omega) (rs.get ⟨j, hj⟩).src
    ⟨⟨h1, by omega⟩, ⟨le_refl _, by omega⟩⟩

/-- Binary search finds the containing range when the table is chained and
the containing index lies in the searched window. -/
theorem mapGo_found (rs : List Range) (key : Nat)
    (hchain : ∀ i j (hi : i < rs.length) (hj : j < rs.length), i < j →
      (rs.get ⟨i, hi⟩).src + (rs.get ⟨i, hi⟩).len ≤ (rs.get ⟨j, hj⟩).src)
    (i : Nat) (hi : i < rs.length) (hcont : (rs.get ⟨i, hi⟩).containsKey key) :
    ∀ fuel lb ub, ub ≤ rs.length → ub - lb ≤ fuel → lb ≤ i → i < ub →
      Map.mapGo rs key fuel lb ub = (rs.get ⟨i, hi⟩).mapKey key := by
  obtain ⟨hc1, hc2⟩ := (Range.containsKey_iff _ _).mp hcont
  intro fuel
  induction fuel with
  | zero => intro lb ub _ hf h1 h2; omega
  | succ fuel ih =>
    intro lb ub hub hf h1 h2
    have hlt : lb < ub := by omega
    have hmidlt : (lb + ub) / 2 < rs.length := by omega
    simp only [Map.mapGo, if_pos hlt]
    rw [List.get?_eq_get hmidlt]
    simp only
    by_cases hc : (rs.get ⟨(lb + ub) / 2, hmidlt⟩).containsKey key
    · rw [if_pos hc]
      obtain ⟨hm1, hm2⟩ := (Range.containsKey_iff _ _).mp hc
      have heq : i = (lb + ub) / 2 := by
        by_contra hne
        rcases Nat.lt_or_ge i ((lb + ub) / 2) with hlt2 | hge
        · have := hchain i ((lb + ub) / 2) hi hmidlt hlt2
          omega
        · have hlt3 : (lb + ub) / 2 < i := by omega
          have := hchain ((lb + ub) / 2) i hmidlt hi hlt3
          omega
      subst heq
      rfl
    · rw [if_neg hc]
      have hnc : key < (rs.get ⟨(lb + ub) / 2, hmidlt⟩).src ∨
          (rs.get ⟨(lb + ub) / 2, hmidlt⟩).src +
            (rs.get ⟨(lb + ub) / 2, hmidlt⟩).len ≤ key := by
        by_contra hboth
        push_neg at hboth
        exact hc ⟨hboth.1, by omega⟩
      by_cases hk : key < (rs.get ⟨(lb + ub) / 2, hmidlt⟩).src
      · rw [if_pos hk]
        have hi_lt : i < (lb + ub) / 2 := by
          by_contra hge
          have hge2 : (lb + ub) / 2 ≤ i := by omega
          rcases Nat.eq_or_lt_of_le hge2 with heq2 | hlt2
          · apply hc
            have heqf : (⟨(lb + ub) / 2, hmidlt⟩ : Fin rs.length) = ⟨i, hi⟩ :=
              Fin.ext heq2
            rw [heqf]
            exact hcont
          · have := hchain ((lb + ub) / 2) i hmidlt hi hlt2
            omega
        exact ih lb ((lb + ub) / 2) (by omega) (by omega) h1 hi_lt
      · rw [if_neg hk]
        have hk2 : (rs.get ⟨(lb + ub) / 2, hmidlt⟩).src +
            (rs.get ⟨(lb + ub) / 2, hmidlt⟩).len ≤ key := by
          rcases hnc with h | h
          · omega
          · exact h
        have hi_gt : (lb + ub) / 2 < i := by
          by_contra hge
          have hge2 : i ≤ (lb + ub) / 2 := by omega
          rcases Nat.eq_or_lt_of_le hge2 with heq2 | hlt2
          · apply hc
            have heqf : (⟨(lb + ub) / 2, hmidlt⟩ : Fin rs.length) = ⟨i, hi⟩ :=
              Fin.ext heq2.symm
            rw [heqf]
            exact hcont
          · have := hchain i ((lb + ub) / 2) hi hmidlt hlt2
            omega
        exact ih ((lb + ub) / 2 + 1) ub hub (by omega) (by omega) h2

/-- C3, amended (positive range lengths added): on a table sorted by
source start with pairwise non-overlapping ranges of positive length,
`Map::map` returns `dst + (key - src)` of the containing range and falls
back to the identity when no range contains the key; on the spec's example
table, `map 98 = 50` and `map 49 = 49`. -/
theorem c3_binary_search_correct (rs : List Range)
    (hsort : ∀ i j (hi : i < rs.length) (hj : j < rs.length), i < j →
        (rs.get ⟨i, hi⟩).src ≤ (rs.get ⟨j, hj⟩).src)
    (hdisj : ∀ i j (hi : i < rs.length) (hj : j < rs.length), i ≠ j →
        ∀ k, ¬((rs.get ⟨i, hi⟩).containsKey k ∧ (rs.get ⟨j, hj⟩).containsKey k))
    (hpos : ∀ r ∈ rs, 0 < r.len) (key : Nat) :
    (∀ i (hi : i < rs.length), (rs.get ⟨i, hi⟩).containsKey key →
        (Map.mk rs).mapKey key = (rs.get ⟨i, hi⟩).mapKey key) ∧
    ((∀ r ∈ rs, ¬ r.containsKey key) → (Map.mk rs).mapKey key = key) ∧
    (Map.mk exTable).mapKey 98 = 50 ∧ (Map.mk exTable).mapKey 49 = 49 := by
  refine ⟨?_, ?_, by decide, by decide⟩
  · intro i hi hcont
    exact mapGo_found rs key (chain_of_sorted_disjoint rs hsort hdisj hpos)
      i hi hcont (rs.length + 1) 0 rs.length (le_refl _) (by omega)
      (Nat.zero_le _) hi
  · intro hnone
    exact mapGo_notfound rs key hnone _ 0 rs.length

theorem c3_binary_search_correct_witness :
    (Map.mk exTable).mapKey 98 = (exTable.get ⟨1, by decide⟩).mapKey 98 := by
  have hsort : ∀ i j (hi : i < exTable.length) (hj : j < exTable.length),
      i < j → (exTable.get ⟨i, hi⟩).src ≤ (exTable.get ⟨j, hj⟩).src := by
    intro i j hi hj hij
    have hi2 : i < 2 := hi
    have hj2 : j < 2 := hj
    obtain ⟨rfl, rfl⟩ : i = 0 ∧ j = 1 := by omega
    show (50 : Nat) ≤ 98
    omega
  have hdisj : ∀ i j (hi : i < exTable.length) (hj : j < exTable.length),
      i ≠ j → ∀ k, ¬((exTable.get ⟨i, hi⟩).containsKey k ∧
        (exTable.get ⟨j, hj⟩).containsKey k) := by
    intro i j hi hj hne k hk
    have hi2 : i < 2 := hi
    have hj2 : j < 2 := hj
    obtain ⟨hk1, hk2⟩ := hk
    obtain ⟨a1, a2⟩ := (Range.containsKey_iff _ _).mp hk1
    obtain ⟨b1, b2⟩ := (Range.containsKey_iff _ _).mp hk2
    rcases (by omega : (i = 0 ∧ j = 1) ∨ (i = 1 ∧ j = 0)) with ⟨rfl, rfl⟩ | ⟨rfl, rfl⟩
    · have a2n : k < 50 + 48 := a2
      have b1n : (98 : Nat) ≤ k := b1
      omega
    · have a1n : (98 : Nat) ≤ k := a1
      have b2n : k < 50 + 48 := b2
      omega
  have hpos : ∀ r ∈ exTable, 0 < r.len := by
    intro r hr
    simp only [exTable, List.mem_cons, List.not_mem_nil, or_false] at hr
    rcases hr with rfl | rfl <;> decide
  exact (c3_binary_search_correct exTable hsort hdisj hpos 98).1 1
    (by decide) (by decide)

/-- C3, refuted as stated: with a zero-length range the table can be
sorted by source start and pairwise non-overlapping, yet binary search
misses the (unique) containing range and falls back to the identity. -/
theorem c3_counterexample :
    cexR0.src ≤ cexR1.src ∧
    (∀ k, ¬(cexR0.containsKey k ∧ cexR1.containsKey k)) ∧
    cexR0.containsKey 5 ∧ ¬ cexR1.containsKey 5 ∧
    cexR0.mapKey 5 = 10 ∧
    (Map.mk [cexR0, cexR1]).mapKey 5 = 5 := by
  refine ⟨by decide, ?_, by decide, by decide, by decide, by decide⟩
  intro k hk
  obtain ⟨-, hb⟩ := hk
  obtain ⟨hb1, hb2⟩ := (Range.containsKey_iff _ _).mp hb
  simp only [cexR1] at hb1 hb2
  omega

end Day05

namespace Day05

/-- C7, refuted as stated: a wrong field count in the final range line is
malformed input, yet parsing succeeds — `parse_input` stops after the
third number of that line and `Input::from_str` silently discards the
non-empty remainder instead of returning an `Err`. -/
theorem c7_counterexample :
    (inputFromStr tailExtraField).isSome = true ∧
    (parseInput tailExtraField.data).map Prod.fst ≠ some [] := by
  constructor
  · set_option maxRecDepth 100000 in decide
  · set_option maxRecDepth 100000 in decide

/-- C7, amended: malformed input that the parser must consume — a wrong
field count in a range line before the end, a non-numeric token, a
missing section header — fails parsing immediately with no partial
result, while the well-formed input parses. -/
theorem c7_malformed_input_fails :
    inputFromStr badFieldCount = none ∧
    inputFromStr badToken = none ∧
    inputFromStr badHeader = none ∧
    (inputFromStr goodInput).isSome = true := by
  refine ⟨?_, ?_, ?_, ?_⟩
  · set_option maxRecDepth 100000 in rfl
  · set_option maxRecDepth 100000 in rfl
  · set_option maxRecDepth 100000 in rfl
  · set_option maxRecDepth 100000 in decide

end Day05

namespace Day04

theorem grantGo_get? (start n k : Nat) :
    ∀ (cards : List Card) (i j : Nat),
      (grantGo start n k i cards).get? j =
        (cards.get? j).map
          (fun c => if start ≤ i + j ∧ i + j < start + n then bump k c else c) := by
  intro cards
  induction cards with
  | nil => intro i j; rfl
  | cons c cs ih =>
    intro i j
    cases j with
    | zero => simp [grantGo]
    | succ j =>
      simp only [grantGo, List.get?]
      rw [ih (i + 1) j]
      have : i + 1 + j = i + (j + 1) := by omega
      rw [this]

theorem grantCopies_get? (cards : List Card) (start n k j : Nat) :
    (grantCopies cards start n k).get? j =
      (cards.get? j).map
        (fun c => if start ≤ j ∧ j < start + n then bump k c else c) := by
  unfold grantCopies
  rw [grantGo_get?]
  simp

/-- Cards whose `id` is their 1-based position. -/
def IdsSequential (cards : List Card) : Prop :=
  ∀ i c, cards.get? i = some c → c.id = i + 1

theorem idsSequential_grantCopies (cards : List Card) (start n k : Nat)
    (h : IdsSequential cards) : IdsSequential (grantCopies cards start n k) := by
  intro i c hget
  rw [grantCopies_get?] at hget
  cases hget2 : cards.get? i with
  | none => rw [hget2] at hget; cases hget
  | some c0 =>
    rw [hget2] at hget
    have hc : (if start ≤ i ∧ i < start + n then bump k c0 else c0) = c :=
      Option.some.inj hget
    have hid := h i c0 hget2
    by_cases hcond : start ≤ i ∧ i < start + n
    · rw [if_pos hcond] at hc
      rw [← hc]
      exact hid
    · rw [if_neg hcond] at hc
      rw [← hc]
      exact hid

/-- On games whose card ids equal their 1-based positions, the `skip(id)`
loop of `Game::play` coincides with the spec's next-`n`-cards cascade. -/
theorem playGo_eq_cascadeGo :
    ∀ fuel idx (cards : List Card), IdsSequential cards →
      playGo fuel idx cards = cascadeGo fuel idx cards := by
  intro fuel
  induction fuel with
  | zero => intro idx cards _; rfl
  | succ fuel ih =>
    intro idx cards hids
    simp only [playGo, cascadeGo]
    cases hget : cards.get? idx with
    | none => rfl
    | some c =>
      have hid : c.id = idx + 1 := hids idx c hget
      dsimp only
      rw [hid]
      exact ih (idx + 1) _ (idsSequential_grantCopies cards (idx + 1) _ _ hids)

/-- C4, refuted as stated: `Game::play` grants starting at index `id`,
not at the next card, so a parseable game whose ids do not match their
positions (two cards both labelled `Card 1`, one match each) yields 5,
while the claimed cascade yields 3. -/
theorem c4_counterexample :
    play cexCards = 5 ∧
    ((cascadeGo cexCards.length 0 cexCards).map Card.copies).sum = 3 ∧
    play cexCards ≠
      ((cascadeGo cexCards.length 0 cexCards).map Card.copies).sum := by
  refine ⟨by decide, by decide, by decide⟩

/-- C4, amended: on every game whose card ids equal their 1-based
positions (true of every real input), `Game::play` implements the
cascade — each card adds its current copy count to the next
`num_matching` cards — and returns the sum of all `copies` fields of the
cascaded cards. -/
theorem c4_play_implements_cascade (cards : List Card)
    (hids : IdsSequential cards) :
    playGo cards.length 0 cards = cascadeGo cards.length 0 cards ∧
    play cards = ((cascadeGo cards.length 0 cards).map Card.copies).sum := by
  have h := playGo_eq_cascadeGo cards.length 0 cards hids
  exact ⟨h, by rw [play, h]⟩

theorem c4_play_implements_cascade_witness :
    play okCards = ((cascadeGo okCards.length 0 okCards).map Card.copies).sum := by
  have hids : IdsSequential okCards := by
    intro i c h
    match i with
    | 0 => cases h; rfl
    | 1 => cases h; rfl
    | n + 2 => cases h
  exact (c4_play_implements_cascade okCards hids).2

end Day04

namespace Day07

/-- C5: `"QJJQ2"` under the joker rule — jokers removed from the counts
and given to the most frequent remaining label — is four of a kind,
strictly above the two pair it scores without substitution. -/
theorem c5_wildcard_ranking :
    parseHand "QJJQ2" = some qjjq2 ∧
    jokerHandType qjjq2 = HandType.fourOfAKind ∧
    defaultHandType qjjq2 = HandType.twoPairs ∧
    HandType.rank HandType.twoPairs < HandType.rank HandType.fourOfAKind := by
  decide

end Day07

namespace Day01

/-- C6: the scan visits every byte position left to right, recognising
digits and (overlapping) digit words: `"two1nine"` values to 29 and
`"eightwothree"` to 83; a line whose scan finds exactly one digit `d`
values to `11 * d`. -/
theorem c6_word_digit_scan :
    calibrationValue (strBytes "two1nine") = some 29 ∧
    calibrationValue (strBytes "eightwothree") = some 83 ∧
    ∀ (bytes : List Nat) (d : Nat), digitsOf bytes = [d] →
      calibrationValue bytes = some (11 * d) := by
  refine ⟨by decide, by decide, ?_⟩
  intro bytes d h
  unfold calibrationValue
  rw [h]
  show some (d * 10 + d) = some (11 * d)
  exact congrArg some (by omega)

theorem c6_word_digit_scan_witness :
    calibrationValue (strBytes "7") = some (11 * 7) :=
  c6_word_digit_scan.2.2 (strBytes "7") 7 (by decide)

end Day01

/-- `mapM` over `Option` succeeds pointwise: if `f` returns `some (g a)`
on every element, the traversal returns the mapped list. -/
theorem mapM_option_of_all_some {α β : Type} (f : α → Option β) (g : α → β) :
    ∀ l : List α, (∀ a ∈ l, f a = some (g a)) → l.mapM f = some (l.map g) := by
  intro l
  induction l with
  | nil => intro _; rfl
  | cons a l ih =>
    intro h
    rw [List.mapM_cons, h a (List.mem_cons_self a l),
        ih fun b hb => h b (List.mem_cons_of_mem a hb)]
    rfl

namespace Day06

/-- C8: `Race::distance` returns `(time - hold_time) * hold_time` under
its precondition `hold_time ≤ time`; every hold time that `winning_bets`
and `num_winning_bets` try lies in `0..=time`, so the whole computation
succeeds — the assertion never fires. -/
theorem c8_distance_assert_safe (r : Race) :
    (∀ h, h ≤ r.time → r.distanceCk h = some ((r.time - h) * h)) ∧
    (∀ h ∈ List.range (r.time + 1), h ≤ r.time) ∧
    (∃ l, r.winningBets = some l ∧ r.numWinningBets = some l.length) := by
  have hck : ∀ h, h ≤ r.time → r.distanceCk h = some ((r.time - h) * h) := by
    intro h hh
    unfold Race.distanceCk
    rw [if_pos hh]
  have hmem : ∀ h ∈ List.range (r.time + 1), h ≤ r.time := by
    intro h hh
    have := List.mem_range.mp hh
    omega
  refine ⟨hck, hmem, ?_⟩
  have hb : r.bets =
      some ((List.range (r.time + 1)).map fun h => (h, (r.time - h) * h)) := by
    unfold Race.bets
    apply mapM_option_of_all_some
    intro a ha
    rw [hck a (hmem a ha)]
    rfl
  have hw : r.winningBets =
      some ((((List.range (r.time + 1)).map fun h =>
          (h, (r.time - h) * h)).dropWhile fun p =>
            Nat.ble p.2 r.distance).takeWhile fun p =>
              Nat.blt r.distance p.2) := by
    unfold Race.winningBets
    rw [hb]
    rfl
  refine ⟨_, hw, ?_⟩
  unfold Race.numWinningBets
  rw [hw]
  rfl

theorem c8_distance_assert_safe_witness :
    Race.distanceCk ⟨7, 9⟩ 5 = some ((7 - 5) * 5) :=
  (c8_distance_assert_safe ⟨7, 9⟩).1 5 (by decide)

end Day06

namespace Day15

theorem hash_fold_lt (bytes : List Nat) :
    ∀ h0, h0 < 256 →
      bytes.foldl (fun h b => (h + b) % 2 ^ 64 * 17 % 2 ^ 64 % 256) h0 < 256 := by
  induction bytes with
  | nil => intro h0 hh; exact hh
  | cons b bs ih =>
    intro h0 _
    exact ih _ (Nat.mod_lt _ (by norm_num))

/-- The rolling hash reduces modulo 256 at every byte, so it is always a
valid box index. -/
theorem hashBytes_lt (bytes : List Nat) : hashBytes bytes < 256 :=
  hash_fold_lt bytes 0 (by norm_num)

/-- Every step stored in any box is an `Add` step. -/
def AllAdd (boxes : List (List Step)) : Prop :=
  ∀ bx ∈ boxes, ∀ s ∈ bx, ∃ n, s.op = Op.add n

theorem mem_of_mem_eraseIdx {α : Type} :
    ∀ (l : List α) (i : Nat) (a : α), a ∈ l.eraseIdx i → a ∈ l := by
  intro l
  induction l with
  | nil => intro i a h; cases h
  | cons x xs ih =>
    intro i a h
    cases i with
    | zero => exact List.mem_cons_of_mem x h
    | succ i =>
      rcases List.mem_cons.mp h with rfl | h2
      · exact List.mem_cons_self _ _
      · exact List.mem_cons_of_mem x (ih i a h2)

/-- With 256 boxes, one step of the filling loop cannot panic (the hash
is in bounds), keeps 256 boxes, and stores only `Add` steps. -/
theorem applyStep_succeeds (boxes : List (List Step)) (s : Step)
    (hlen : boxes.length = 256) :
    ∃ boxes2, applyStep boxes s = some boxes2 ∧ boxes2.length = 256 ∧
      (AllAdd boxes → AllAdd boxes2) := by
  have hlt : hashBytes s.label < boxes.length := by
    rw [hlen]
    exact hashBytes_lt s.label
  have hget : boxes.get? (hashBytes s.label) =
      some (boxes.get ⟨hashBytes s.label, hlt⟩) := List.get?_eq_get hlt
  have hbxmem : boxes.get ⟨hashBytes s.label, hlt⟩ ∈ boxes :=
    List.get_mem boxes (hashBytes s.label) hlt
  unfold applyStep
  rw [hget]
  dsimp only
  cases hop : s.op with
  | remove =>
    cases hfind : (boxes.get ⟨hashBytes s.label, hlt⟩).findIdx?
        (fun t => t.label == s.label) with
    | some i =>
      refine ⟨_, rfl, ?_, ?_⟩
      · rw [List.length_set]
        exact hlen
      · intro hall bx2 hbx2 t ht
        rcases List.mem_or_eq_of_mem_set hbx2 with h2 | rfl
        · exact hall bx2 h2 t ht
        · exact hall _ hbxmem t (mem_of_mem_eraseIdx _ i t ht)
    | none => exact ⟨boxes, rfl, hlen, fun hall => hall⟩
  | add focal =>
    cases hfind : (boxes.get ⟨hashBytes s.label, hlt⟩).findIdx?
        (fun t => t.label == s.label) with
    | some i =>
      refine ⟨_, rfl, ?_, ?_⟩
      · rw [List.length_set]
        exact hlen
      · intro hall bx2 hbx2 t ht
        rcases List.mem_or_eq_of_mem_set hbx2 with h2 | rfl
        · exact hall bx2 h2 t ht
        · rcases List.mem_or_eq_of_mem_set ht with h3 | rfl
          · exact hall _ hbxmem t h3
          · exact ⟨focal, hop⟩
    | none =>
      refine ⟨_, rfl, ?_, ?_⟩
      · rw [List.length_set]
        exact hlen
      · intro hall bx2 hbx2 t ht
        rcases List.mem_or_eq_of_mem_set hbx2 with h2 | rfl
        · exact hall bx2 h2 t ht
        · rcases List.mem_append.mp ht with h3 | h4
          · exact hall _ hbxmem t h3
          · have ht2 : t = s := by simpa using h4
            subst ht2
            exact ⟨focal, hop⟩

/-- The filling loop succeeds and maintains both invariants. -/
theorem runSteps_succeeds :
    ∀ (steps : List Step) (boxes : List (List Step)), boxes.length = 256 →
      AllAdd boxes →
      ∃ bs, runSteps steps boxes = some bs ∧ bs.length = 256 ∧ AllAdd bs := by
  intro steps
  induction steps with
  | nil => intro boxes hlen hall; exact ⟨boxes, rfl, hlen, hall⟩
  | cons s rest ih =>
    intro boxes hlen hall
    obtain ⟨b2, hap, hlen2, hpres⟩ := applyStep_succeeds boxes s hlen
    obtain ⟨bs, hrun, hlen3, hall3⟩ := ih b2 hlen2 (hpres hall)
    refine ⟨bs, ?_, hlen3, hall3⟩
    unfold runSteps
    rw [hap]
    exact hrun

/-- A box holding only `Add` steps has a focusing power (no
`unreachable!`). -/
theorem boxPowerGo_succeeds :
    ∀ bx : List Step, (∀ s ∈ bx, ∃ n, s.op = Op.add n) →
      ∀ bxIdx stepIdx, ∃ v, boxPowerGo bxIdx stepIdx bx = some v := by
  intro bx
  induction bx with
  | nil => intro _ bxIdx stepIdx; exact ⟨0, rfl⟩
  | cons s rest ih =>
    intro hall bxIdx stepIdx
    obtain ⟨n, hop⟩ := hall s (List.mem_cons_self _ _)
    obtain ⟨v, hv⟩ :=
      ih (fun t ht => hall t (List.mem_cons_of_mem s ht)) bxIdx (stepIdx + 1)
    refine ⟨(bxIdx + 1) * (stepIdx + 1) * n + v, ?_⟩
    unfold boxPowerGo
    rw [hop]
    dsimp only
    rw [hv]
    rfl

theorem totalPowerGo_succeeds :
    ∀ boxes : List (List Step), AllAdd boxes →
      ∀ bxIdx, ∃ v, totalPowerGo bxIdx boxes = some v := by
  intro boxes
  induction boxes with
  | nil => intro _ bxIdx; exact ⟨0, rfl⟩
  | cons bx rest ih =>
    intro hall bxIdx
    obtain ⟨p, hp⟩ :=
      boxPowerGo_succeeds bx (hall bx (List.mem_cons_self _ _)) bxIdx 0
    obtain ⟨q, hq⟩ := ih (fun b hb => hall b (List.mem_cons_of_mem bx hb)) (bxIdx + 1)
    refine ⟨p + q, ?_⟩
    unfold totalPowerGo
    simp only [hp, hq]
    rfl

/-- C10: `Steps::run` never panics: the hash of any byte string is below
256, so `boxes[hash]` is in bounds, and the boxes only ever hold `Add`
steps, so the `unreachable!` in the focusing-power loop is dead — on
every step list, `run` returns a value. -/
theorem c10_run_never_panics :
    (∀ bytes : List Nat, hashBytes bytes < 256) ∧
    ∀ steps : List Step, ∃ v, run steps = some v := by
  refine ⟨hashBytes_lt, ?_⟩
  intro steps
  have hinit_len : initBoxes.length = 256 := by
    unfold initBoxes
    exact List.length_replicate 256 []
  have hinit_all : AllAdd initBoxes := by
    intro bx hbx s hs
    have hbe : bx = [] := List.eq_of_mem_replicate hbx
    subst hbe
    cases hs
  obtain ⟨bs, hrun, hlen, hall⟩ :=
    runSteps_succeeds steps initBoxes hinit_len hinit_all
  obtain ⟨v, hv⟩ := totalPowerGo_succeeds bs hall 0
  refine ⟨v, ?_⟩
  unfold run
  rw [hrun]
  exact hv

end Day15
